import Mathlib

/-!
Verification of the WordlistRefinery core pipeline.

This file gives a shallow embedding, faithful to the Python sources
`src/wordlist_refinery/analyzer.py`, `src/wordlist_refinery/loader.py` and
`src/wordlist_refinery/main.py`, of:

* the Shannon-entropy computation (`calculate_shannon_entropy`, backed by
  `scipy.stats.entropy` which is embedded as `scipy_entropy` over `ℝ`);
* the compiled regular-expression predicates (`WPA2_PATTERN`, `REJECT_TEXT`,
  `REJECT_WHITESPACE`, `PASSWORDLIKE`, `HAS_UPPER`/`HAS_LOWER`/`HAS_DIGIT`/
  `HAS_SPECIAL`) and the combined `filter_wpa2_compliant` pass;
* the strength classifier `classify_strength`;
* the chunked loader `DataLoader.load_chunks`;
* the orchestrator loop of `main.analyze` (one-time ASCII/CSV output-mode
  decision, per-batch filtering, raw CSV output writing, missing-file path).

Text is modelled as `List Char` (Python `str` is a sequence of Unicode code
points). Character classes from the regexes are modelled numerically over
code points. Python `\s`, `str.strip` and re case-insensitivity are modelled
over their ASCII parts, which is exact on the inputs all claims range over.
-/

namespace WordlistRefinery

/-- Python whitespace characters (`\s`, `str.strip()`): space, tab, newline,
carriage return, vertical tab, form feed (ASCII part). -/
def pyIsSpace (c : Char) : Bool :=
  c.toNat = 32 || c.toNat = 9 || c.toNat = 10 || c.toNat = 13 ||
    c.toNat = 11 || c.toNat = 12

/-- Character class of `WPA2_PATTERN`: printable ASCII `[\x20-\x7E]`. -/
def printableAscii (c : Char) : Bool :=
  32 ≤ c.toNat && c.toNat ≤ 126

/-- Character class of the `PASSWORDLIKE` pattern:
`[A-Za-z0-9!@#$%^&*()_\-+=\[\]{};:'\",.<>?/\\|~`]` from `analyzer.py`,
written via code points. -/
def passwordlikeChar (c : Char) : Bool :=
  let n := c.toNat
  (65 ≤ n && n ≤ 90) || (97 ≤ n && n ≤ 122) || (48 ≤ n && n ≤ 57) ||
  n = 33 || n = 64 || n = 35 || n = 36 || n = 37 || n = 94 || n = 38 ||
  n = 42 || n = 40 || n = 41 || n = 95 || n = 45 || n = 43 || n = 61 ||
  n = 91 || n = 93 || n = 123 || n = 125 || n = 59 || n = 58 || n = 39 ||
  n = 34 || n = 44 || n = 46 || n = 60 || n = 62 || n = 63 || n = 47 ||
  n = 92 || n = 124 || n = 126 || n = 96

/-- Character class of `HAS_SPECIAL`: `[!@#$%^&*(),.?":{}|<>]`, via code
points: `! @ # $ % ^ & * ( ) , . ? " : { } | < >`. -/
def specialChar (c : Char) : Bool :=
  let n := c.toNat
  n = 33 || n = 64 || n = 35 || n = 36 || n = 37 || n = 94 || n = 38 ||
  n = 42 || n = 40 || n = 41 || n = 44 || n = 46 || n = 63 || n = 34 ||
  n = 58 || n = 123 || n = 125 || n = 124 || n = 60 || n = 62

/-- Word characters for the regex `\b` boundary (`\w`), on its ASCII part:
letters, digits, underscore. -/
def isWordChar (c : Char) : Bool :=
  let n := c.toNat
  (65 ≤ n && n ≤ 90) || (97 ≤ n && n ≤ 122) || (48 ≤ n && n ≤ 57) || n = 95

/-- ASCII lowercasing, modelling the effect of `re.IGNORECASE` by comparing
lowercased text against the (lowercase) literal tokens. -/
def asciiLower (c : Char) : Char :=
  if 65 ≤ c.toNat && c.toNat ≤ 90 then Char.ofNat (c.toNat + 32) else c

/-- Test whether `tok` is a prefix of the second list (decidable,
executable). -/
def hasPrefixL : List Char → List Char → Bool
  | [], _ => true
  | _ :: _, [] => false
  | a :: as, b :: bs => a = b && hasPrefixL as bs

/-- Model of `re.search` of a literal token: `tok` occurs as a
contiguous substring of `s`. -/
def containsSub (tok : List Char) : List Char → Bool
  | [] => hasPrefixL tok []
  | c :: rest => hasPrefixL tok (c :: rest) || containsSub tok rest

/-- Match of `dom` at the head of `suffix`, followed by a `\b` boundary:
the next character, when present, is not a word character (the last
character of `dom` is a word character). -/
def domAt (dom suffix : List Char) : Bool :=
  hasPrefixL dom suffix &&
    (match suffix.drop dom.length with
     | [] => true
     | c :: _ => !isWordChar c)

/-- Model of `re.search` of a token followed by `\b` (used for
`\.com\b` etc.). -/
def domSub (dom : List Char) : List Char → Bool
  | [] => domAt dom []
  | c :: rest => domAt dom (c :: rest) || domSub dom rest

/-- The `REJECT_TEXT` pattern from `analyzer.py`:
`(?:http://|https://|www\.|\.com\b|\.net\b|\.org\b|rockyou|friendster|layout)`
with `re.IGNORECASE`, applied by `Series.str.contains` (search anywhere). -/
def reject_text (s : List Char) : Bool :=
  let t := s.map asciiLower
  containsSub "http://".toList t || containsSub "https://".toList t ||
  containsSub "www.".toList t || domSub ".com".toList t ||
  domSub ".net".toList t || domSub ".org".toList t ||
  containsSub "rockyou".toList t || containsSub "friendster".toList t ||
  containsSub "layout".toList t

/-- The `REJECT_WHITESPACE` pattern (`\s`, searched anywhere). -/
def reject_whitespace (s : List Char) : Bool :=
  s.any pyIsSpace

/-- Model of `re.search` of an anchored pattern `^[class]{8,63}$` on `s`.
`^` anchors at position 0; `$` matches at the end of the string or just
before a final newline, so the pattern matches iff either the whole string
is 8–63 class characters, or the string ends in `'\n'` and everything
before that newline is 8–63 class characters (the class contains no
newline in either pattern of the source). -/
def anchoredClassMatch (cls : Char → Bool) (s : List Char) : Bool :=
  (s.all cls && 8 ≤ s.length && s.length ≤ 63) ||
  (s.getLast? = some '\n' && s.dropLast.all cls &&
    8 ≤ s.dropLast.length && s.dropLast.length ≤ 63)

/-- The `WPA2_PATTERN` regex `^[\x20-\x7E]{8,63}$`, applied via
`str.contains`. -/
def wpa2_match (s : List Char) : Bool :=
  anchoredClassMatch printableAscii s

/-- The `PASSWORDLIKE` pattern, applied via `str.contains`. -/
def passwordlike_match (s : List Char) : Bool :=
  anchoredClassMatch passwordlikeChar s

/-- The combined mask of `filter_wpa2_compliant`:
`mask_wpa2 & ~mask_text & ~mask_whitespace & mask_passwordlike`. -/
def complianceMask (s : List Char) : Bool :=
  wpa2_match s && !reject_text s && !reject_whitespace s &&
    passwordlike_match s

/-- The `HAS_UPPER` pattern searched anywhere: contains an ASCII uppercase letter. -/
def hasUpperB (s : List Char) : Bool :=
  s.any (fun c => 65 ≤ c.toNat && c.toNat ≤ 90)

/-- The `HAS_LOWER` pattern searched anywhere: contains an ASCII lowercase letter. -/
def hasLowerB (s : List Char) : Bool :=
  s.any (fun c => 97 ≤ c.toNat && c.toNat ≤ 122)

/-- The `HAS_DIGIT` pattern (`\d`) searched anywhere: contains an ASCII digit. -/
def hasDigitB (s : List Char) : Bool :=
  s.any (fun c => 48 ≤ c.toNat && c.toNat ≤ 57)

/-- The `HAS_SPECIAL` pattern searched anywhere: contains a character of the fixed
special set. -/
def hasSpecialB (s : List Char) : Bool :=
  s.any specialChar

/-- Embedding of `scipy.stats.entropy(pk, base=b)`: the probability vector
is normalised by its sum, then Shannon entropy is taken in base `b`
(`S = -sum(qk * log(qk)) / log(base)`). -/
noncomputable def scipy_entropy (pk : List ℝ) (base : ℝ) : ℝ :=
  let qk := pk.map (fun p => p / pk.sum);
  -((qk.map (fun q => q * Real.log q)).sum) / Real.log base

/-- Embedding of `PasswordAnalyzer.calculate_shannon_entropy`: empty string gives `0.0`;
otherwise `Counter` produces the count of each distinct character (in
first-occurrence order, modelled by `List.dedup` — the sum is
order-independent), the counts are divided by the length, and
`scipy.stats.entropy(probs, base=2)` is returned. -/
noncomputable def calculate_shannon_entropy (word : List Char) : ℝ :=
  if word = [] then 0
  else
    scipy_entropy
      (word.dedup.map (fun c => (word.count c : ℝ) / (word.length : ℝ))) 2

/-- Embedding of `PasswordAnalyzer.classify_strength`: four half-open
entropy bins with
the labels returned by the source. -/
noncomputable def classify_strength (entropy_val : ℝ) : List Char :=
  if entropy_val < 2.5 then "Very Weak".toList
  else if entropy_val < 3.5 then "Weak".toList
  else if entropy_val < 4.5 then "Moderate".toList
  else "Strong".toList

/-- Remove the trailing run of characters satisfying `p`
(Python `str.rstrip` with an explicit character set, and the trailing half
of `str.strip`). -/
def dropTrailing (p : Char → Bool) (l : List Char) : List Char :=
  (l.reverse.dropWhile p).reverse

/-- Model of `line.rstrip("\r\n")`: drop every trailing `'\r'`/`'\n'`. -/
def rstripNl (l : List Char) : List Char :=
  dropTrailing (fun c => c = '\r' || c = '\n') l

/-- Model of `raw.strip()`: drop leading and trailing Python whitespace. -/
def pyStrip (l : List Char) : List Char :=
  dropTrailing pyIsSpace (l.dropWhile pyIsSpace)

/-- The per-line candidate transformation of `DataLoader.load_chunks`:
`raw = line.rstrip("\r\n")` followed by `password = raw.strip()`. -/
def candidateOf (line : List Char) : List Char :=
  pyStrip (rstripNl line)

/-- Split file content into the lines Python's text-mode iteration sees:
one piece per `'\n'`-separated segment (universal-newline translation of
`'\r\n'` leaves a trailing `'\r'` on the segment, which `rstripNl`
removes; the terminators themselves are consumed by `rstripNl` as well,
so segments are yielded without their `'\n'`). -/
def splitLinesNl : List Char → List (List Char)
  | [] => [[]]
  | c :: rest =>
    if c = '\n' then [] :: splitLinesNl rest
    else
      match splitLinesNl rest with
      | [] => [[c]]
      | h :: t => (c :: h) :: t

/-- The batching loop of `DataLoader.load_chunks`: each non-blank stripped
line is appended to the current batch; when the batch reaches
`chunk_size` entries it is yielded and restarted; a non-empty final batch
is yielded at end of input. -/
def loadLoop (chunkSize : Nat) (batch : List (List Char)) :
    List (List Char) → List (List (List Char))
  | [] => if batch = [] then [] else [batch]
  | line :: rest =>
    let password := candidateOf line
    if password = [] then loadLoop chunkSize batch rest
    else
      let b := batch ++ [password]
      if chunkSize ≤ b.length then b :: loadLoop chunkSize [] rest
      else loadLoop chunkSize b rest

/-- Embedding of `DataLoader.load_chunks` on the decoded content of the source file:
the finite sequence of yielded batches (each batch is the `password`
column of the yielded DataFrame). -/
def load_chunks (content : List Char) (chunkSize : Nat) :
    List (List (List Char)) :=
  loadLoop chunkSize [] (splitLinesNl content)

/-- The pipeline's DataFrame: a `password` column always present, and the
columns the pipeline may add (`entropy` from step 1, the four flag columns
from `tag_complexity`, `strength` from the metadata step). `none` means
the column is absent. -/
structure PyDataFrame where
  password : List (List Char)
  entropyCol : Option (List ℝ)
  hasUpperCol : Option (List Bool)
  hasLowerCol : Option (List Bool)
  hasDigitCol : Option (List Bool)
  hasSpecialCol : Option (List Bool)
  strengthCol : Option (List (List Char))

/-- Row selection `df[mask]`: keep the entries of `col` at the positions
where `mask` is `true`. -/
def maskFilter {α : Type} (mask : List Bool) (col : List α) : List α :=
  (col.zip mask).filterMap (fun pb => if pb.2 then some pb.1 else none)

/-- Embedding of `PasswordAnalyzer.filter_wpa2_compliant df "password"`: build the four
regex masks over the password column, conjoin them, and return `df[mask]`
(a new frame; every column is row-selected by the same mask). -/
def filter_wpa2_compliant (df : PyDataFrame) : PyDataFrame :=
  let mask := df.password.map complianceMask
  { password := maskFilter mask df.password
    entropyCol := df.entropyCol.map (maskFilter mask)
    hasUpperCol := df.hasUpperCol.map (maskFilter mask)
    hasLowerCol := df.hasLowerCol.map (maskFilter mask)
    hasDigitCol := df.hasDigitCol.map (maskFilter mask)
    hasSpecialCol := df.hasSpecialCol.map (maskFilter mask)
    strengthCol := df.strengthCol.map (maskFilter mask) }

/-- Embedding of `PasswordAnalyzer.tag_complexity df "password"`: assign the four flag
columns on `df` itself (`df["has_upper"] = ...` mutates the passed frame)
and return it. -/
def tag_complexity (df : PyDataFrame) : PyDataFrame :=
  { df with
    hasUpperCol := some (df.password.map hasUpperB)
    hasLowerCol := some (df.password.map hasLowerB)
    hasDigitCol := some (df.password.map hasDigitB)
    hasSpecialCol := some (df.password.map hasSpecialB) }

/-- Calling `filter_wpa2_compliant`, observing both the returned frame and
the state of the argument object after the call: the method only reads
`df` and builds a new frame, so the argument is left as it was. -/
def filter_wpa2_call (df : PyDataFrame) : PyDataFrame × PyDataFrame :=
  (filter_wpa2_compliant df, df)

/-- Calling `tag_complexity`, observing both the returned frame and the
state of the argument object after the call: the method assigns the four
flag columns on the argument in place and returns that same object. -/
def tag_complexity_call (df : PyDataFrame) : PyDataFrame × PyDataFrame :=
  (tag_complexity df, tag_complexity df)

/-- A character that forces CSV quoting under `QUOTE_MINIMAL`: the
delimiter `','`, the quote `'"'`, or a line-break character. -/
def csvNeedsQuote (c : Char) : Bool :=
  c.toNat = 44 || c.toNat = 34 || c.toNat = 10 || c.toNat = 13

/-- One field as written by pandas `to_csv` (csv `QUOTE_MINIMAL`): quoted,
with inner quotes doubled, exactly when the text contains a delimiter, a
quote, or a line break; otherwise verbatim. -/
def csvField (s : List Char) : List Char :=
  if s.any csvNeedsQuote then
    Char.ofNat 34 ::
      (s.flatMap (fun c => if c.toNat = 34 then [c, c] else [c])) ++
        [Char.ofNat 34]
  else s

/-- Bytes appended by `chunk_df["password"].to_csv(..., header=False,
index=False)` in raw mode: one CSV-rendered field per retained password,
each followed by a newline. -/
def rawCsvBytes (texts : List (List Char)) : List Char :=
  (texts.map (fun p => csvField p ++ ['\n'])).flatten

/-- The CLI options of `main.analyze` that drive the pipeline. -/
structure Config where
  minEntropy : ℝ
  wpa2Compliant : Bool
  addMetadata : Bool
  markdownTable : Bool
  chunkSize : Nat

/-- Constant `MAX_ASCII_ROWS_FOR_FILE` from `main.py`. -/
def MAX_ASCII_ROWS_FOR_FILE : Nat := 5000

/-- A record of the annotated frame handed to the writers when metadata is
requested: the password plus its derived fields. -/
structure AnnotatedRecord where
  text : List Char
  entropyVal : ℝ
  strengthLabel : List Char
  hU : Bool
  hL : Bool
  hD : Bool
  hS : Bool

/-- The metadata annotation of step 4: `tag_complexity` plus the `strength`
column derived from the entropy column. -/
noncomputable def annotate (texts : List (List Char)) :
    List AnnotatedRecord :=
  texts.map (fun p =>
    { text := p
      entropyVal := calculate_shannon_entropy p
      strengthLabel := classify_strength (calculate_shannon_entropy p)
      hU := hasUpperB p
      hL := hasLowerB p
      hD := hasDigitB p
      hS := hasSpecialB p })

/-- One write to the output file, recorded at the level of what is written
(raw password list, Markdown table, ASCII grid table, or CSV rows with or
without the one-time header). -/
inductive OutEvent where
  | raw (texts : List (List Char))
  | markdown (recs : List AnnotatedRecord)
  | ascii (recs : List AnnotatedRecord)
  | csv (recs : List AnnotatedRecord) (withHeader : Bool)

/-- The loop state of `main.analyze`: the one-time output-mode decision,
the CSV-header flag, the running retained total, and the sequence of
writes made so far. -/
structure RunState where
  useAsciiOutput : Option Bool
  csvHeaderWritten : Bool
  totalPasswords : Nat
  events : List OutEvent

/-- Step 2 of the loop: `chunk_df[chunk_df["entropy"] >= min_entropy]`,
applied only when `min_entropy > 0`. -/
noncomputable def entropyFiltered (cfg : Config) (chunk : List (List Char)) :
    List (List Char) :=
  if cfg.minEntropy > 0 then
    chunk.filter (fun p => decide (cfg.minEntropy ≤ calculate_shannon_entropy p))
  else chunk

/-- The passwords surviving steps 2 and 3 of the loop (entropy filter, then
the WPA2 compliance pass when enabled). -/
noncomputable def retained (cfg : Config) (chunk : List (List Char)) :
    List (List Char) :=
  let afterEntropy := entropyFiltered cfg chunk
  if cfg.wpa2Compliant then afterEntropy.filter complianceMask
  else afterEntropy

/-- One iteration of the `for chunk_df in loader.load_chunks()` loop of
`main.analyze`, faithful to the source's order: skip empty chunks, skip
when the entropy filter empties the chunk, skip when the WPA2 filter
empties it; otherwise, when metadata is requested, resolve the one-time
ASCII/CSV decision on this chunk's pre-filter size if it is still
unresolved, and append the corresponding write; finally accumulate the
retained count. -/
noncomputable def processChunk (cfg : Config) (st : RunState)
    (chunk : List (List Char)) : RunState :=
  if chunk = [] then st
  else if entropyFiltered cfg chunk = [] then st
  else if retained cfg chunk = [] then st
  else
    let kept := retained cfg chunk
    let dec : Option Bool :=
      if cfg.addMetadata then
        match st.useAsciiOutput with
        | some v => some v
        | none => some (decide (chunk.length ≤ MAX_ASCII_ROWS_FOR_FILE))
      else st.useAsciiOutput
    if cfg.addMetadata then
      if cfg.markdownTable then
        { useAsciiOutput := dec
          csvHeaderWritten := st.csvHeaderWritten
          totalPasswords := st.totalPasswords + kept.length
          events := st.events ++ [OutEvent.markdown (annotate kept)] }
      else if dec = some true then
        { useAsciiOutput := dec
          csvHeaderWritten := st.csvHeaderWritten
          totalPasswords := st.totalPasswords + kept.length
          events := st.events ++ [OutEvent.ascii (annotate kept)] }
      else
        { useAsciiOutput := dec
          csvHeaderWritten := true
          totalPasswords := st.totalPasswords + kept.length
          events := st.events ++
            [OutEvent.csv (annotate kept) (!st.csvHeaderWritten)] }
    else
      { useAsciiOutput := dec
        csvHeaderWritten := st.csvHeaderWritten
        totalPasswords := st.totalPasswords + kept.length
        events := st.events ++ [OutEvent.raw kept] }

/-- The state at the start of the loop: no decision made, no CSV header
written, nothing retained, nothing written. -/
def initState : RunState :=
  { useAsciiOutput := none
    csvHeaderWritten := false
    totalPasswords := 0
    events := [] }

/-- The writes performed by a whole run over the given chunks. -/
noncomputable def runEvents (cfg : Config) (chunks : List (List (List Char))) :
    List OutEvent :=
  (chunks.foldl (processChunk cfg) initState).events

/-- Outcome of `main.analyze`: the process exit code, the console message,
and the final state of the output destination (`none` = the file does not
exist; the file content is the recorded write sequence). -/
structure AnalyzeResult where
  exitCode : Nat
  message : List Char
  outFile : Option (List OutEvent)

/-- Embedding of `main.analyze`: when the input path does not exist, print the
not-found message and exit with code 1 before the output file is opened —
the destination keeps its prior state `outBefore`. Otherwise the
destination is truncated once and the chunk loop appends its writes. -/
noncomputable def analyze (srcExists : Bool) (inputFile : List Char)
    (content : List Char) (cfg : Config) (outBefore : Option (List OutEvent)) :
    AnalyzeResult :=
  if srcExists = false then
    { exitCode := 1
      message :=
        "Error: File '".toList ++ inputFile ++ "' not found.".toList
      outFile := outBefore }
  else
    { exitCode := 0
      message := "Success!".toList
      outFile := some (runEvents cfg (load_chunks content cfg.chunkSize)) }

/-- Every password-like character is printable ASCII. -/
lemma passwordlikeChar_printable {c : Char} (h : passwordlikeChar c = true) :
    printableAscii c = true := by
  simp only [passwordlikeChar, printableAscii, Bool.or_eq_true,
    Bool.and_eq_true, decide_eq_true_eq] at h ⊢
  omega

/-- No password-like character is whitespace. -/
lemma passwordlikeChar_not_space {c : Char} (h : passwordlikeChar c = true) :
    pyIsSpace c = false := by
  simp only [passwordlikeChar, Bool.or_eq_true, Bool.and_eq_true,
    decide_eq_true_eq] at h
  simp only [pyIsSpace, Bool.or_eq_false_iff, decide_eq_false_iff_not]
  omega

/-- C3: the strength classifier is a total deterministic function of the
entropy value with exactly four half-open bins: every value below 2.5 maps
to the Very Weak label, values in [2.5, 3.5) to Weak, values in [3.5, 4.5)
to Moderate, and values at or above 4.5 to Strong; each boundary belongs to
the upper bin, and arbitrarily negative inputs fall in the first bin (the
function is total on ℝ, so no error is possible). -/
theorem classify_strength_bins (x : ℝ) :
    (x < 2.5 → classify_strength x = "Very Weak".toList) ∧
    (2.5 ≤ x → x < 3.5 → classify_strength x = "Weak".toList) ∧
    (3.5 ≤ x → x < 4.5 → classify_strength x = "Moderate".toList) ∧
    (4.5 ≤ x → classify_strength x = "Strong".toList) := by
  refine ⟨fun h => ?_, fun h1 h2 => ?_, fun h1 h2 => ?_, fun h => ?_⟩ <;>
    · unfold classify_strength
      split_ifs <;> first | rfl | linarith

/-- Witness for C3: the boundary values 2.5, 3.5, 4.5 each land in the
upper bin, and 2.499 stays Very Weak. -/
theorem classify_strength_bins_witness :
    ((2.499 : ℝ) < 2.5 ∧ classify_strength 2.499 = "Very Weak".toList) ∧
    ((2.5 : ℝ) ≤ 2.5 ∧ (2.5 : ℝ) < 3.5 ∧
      classify_strength 2.5 = "Weak".toList) ∧
    ((3.5 : ℝ) ≤ 3.5 ∧ (3.5 : ℝ) < 4.5 ∧
      classify_strength 3.5 = "Moderate".toList) ∧
    ((4.5 : ℝ) ≤ 4.5 ∧ classify_strength 4.5 = "Strong".toList) :=
  ⟨⟨by norm_num, (classify_strength_bins 2.499).1 (by norm_num)⟩,
   ⟨le_refl _, by norm_num,
     (classify_strength_bins 2.5).2.1 (le_refl _) (by norm_num)⟩,
   ⟨le_refl _, by norm_num,
     (classify_strength_bins 3.5).2.2.1 (le_refl _) (by norm_num)⟩,
   ⟨le_refl _, (classify_strength_bins 4.5).2.2.2 (le_refl _)⟩⟩

/-- C10: the `HAS_SPECIAL` character set is a strict subset of the symbols
permitted by the password-like charset (for example `_` is password-like
but not special), and any string drawn from letters, digits and the
password-like symbols outside the special set satisfies the password-like
charset rule (matching the pattern when its length is within 8–63) while
its `has_special` flag is `false`. -/
theorem has_special_strict_subset (s : List Char) :
    (∀ c : Char, specialChar c = true → passwordlikeChar c = true) ∧
    (passwordlikeChar '_' = true ∧ specialChar '_' = false) ∧
    ((∀ c ∈ s, passwordlikeChar c = true ∧ specialChar c = false) →
      hasSpecialB s = false ∧ s.all passwordlikeChar = true ∧
        (8 ≤ s.length → s.length ≤ 63 → passwordlike_match s = true)) := by
  refine ⟨fun c h => ?_, by decide, fun h => ⟨?_, ?_, fun h8 h63 => ?_⟩⟩
  · simp only [specialChar, passwordlikeChar, Bool.or_eq_true,
      Bool.and_eq_true, decide_eq_true_eq] at h ⊢
    omega
  · simp only [hasSpecialB, List.any_eq_false]
    exact fun c hc => by simp [(h c hc).2]
  · exact List.all_eq_true.mpr fun c hc => (h c hc).1
  · have hall : s.all passwordlikeChar = true :=
      List.all_eq_true.mpr fun c hc => (h c hc).1
    simp [passwordlike_match, anchoredClassMatch, hall, h8, h63]

/-- Witness for C10: the eight-character string `abc_-+=1` is made of
letters, digits and non-special password-like symbols; it matches the
password-like rule and its `has_special` flag is `false`. -/
theorem has_special_strict_subset_witness :
    hasSpecialB "abc_-+=1".toList = false ∧
    "abc_-+=1".toList.all passwordlikeChar = true ∧
    passwordlike_match "abc_-+=1".toList = true := by
  have h := (has_special_strict_subset "abc_-+=1".toList).2.2 (by decide)
  exact ⟨h.1, h.2.1, h.2.2 (by decide) (by decide)⟩

/-- Counterexample to C7: `tag_complexity` does not leave its input batch
unchanged — called on a frame holding only the password column `["a"]`,
the argument object afterwards carries four new flag columns. -/
theorem tag_complexity_mutates_input :
    (tag_complexity_call
        { password := [['a']], entropyCol := none, hasUpperCol := none,
          hasLowerCol := none, hasDigitCol := none, hasSpecialCol := none,
          strengthCol := none }).2 ≠
      { password := [['a']], entropyCol := none, hasUpperCol := none,
        hasLowerCol := none, hasDigitCol := none, hasSpecialCol := none,
        strengthCol := none } := by
  intro h
  have h2 := congrArg PyDataFrame.hasUpperCol h
  simp [tag_complexity_call, tag_complexity] at h2

/-- C7 as amended: the filter pass `filter_wpa2_compliant` leaves its input unchanged, and
`tag_complexity` leaves the password, entropy and strength columns of its
input unchanged but assigns (in place) the four character-class flag
columns, each computed purely from the password texts. -/
theorem analyzer_frame_effects (df : PyDataFrame) :
    (filter_wpa2_call df).2 = df ∧
    (tag_complexity_call df).2.password = df.password ∧
    (tag_complexity_call df).2.entropyCol = df.entropyCol ∧
    (tag_complexity_call df).2.strengthCol = df.strengthCol ∧
    (tag_complexity_call df).2.hasUpperCol =
      some (df.password.map hasUpperB) ∧
    (tag_complexity_call df).2.hasLowerCol =
      some (df.password.map hasLowerB) ∧
    (tag_complexity_call df).2.hasDigitCol =
      some (df.password.map hasDigitB) ∧
    (tag_complexity_call df).2.hasSpecialCol =
      some (df.password.map hasSpecialB) :=
  ⟨rfl, rfl, rfl, rfl, rfl, rfl, rfl, rfl⟩

/-- Row selection by a mask computed from the rows themselves is exactly
`List.filter`. -/
lemma maskFilter_map_self {α : Type} (p : α → Bool) (l : List α) :
    maskFilter (l.map p) l = l.filter p := by
  induction l with
  | nil => rfl
  | cons a t ih =>
    unfold maskFilter at ih ⊢
    cases hp : p a <;>
      simp [List.filter_cons, hp, ih]

/-- A false structural match makes the whole compliance mask false. -/
lemma complianceMask_false_of_wpa2 {s : List Char}
    (h : wpa2_match s = false) : complianceMask s = false := by
  simp [complianceMask, h]

/-- A trailing newline makes the whole compliance mask false through the
whitespace rejection. -/
lemma complianceMask_false_of_newline_last {s : List Char}
    (h : s.getLast? = some '\n') : complianceMask s = false := by
  have hx : '\n' ∈ s.getLast? := by rw [h]; rfl
  obtain ⟨hne, hEq⟩ := List.mem_getLast?_eq_getLast hx
  have hmem : '\n' ∈ s := hEq ▸ List.getLast_mem hne
  have hws : reject_whitespace s = true :=
    List.any_eq_true.mpr ⟨'\n', hmem, by decide⟩
  simp [complianceMask, hws]

/-- Counterexample to C2's consequence: `rockyou1` is a string of exactly
8 password-like printable-ASCII characters, yet the compliance pass
rejects it (the noise rejection matches the corpus-artifact token
`rockyou`), so "a string of exactly 8 password-like printable-ASCII
characters passes" is false as stated. -/
theorem compliance_noise_counterexample :
    "rockyou1".toList.length = 8 ∧
    "rockyou1".toList.all passwordlikeChar = true ∧
    "rockyou1".toList.all printableAscii = true ∧
    complianceMask "rockyou1".toList = false := by decide

/-- C2 as amended: the compliance pass retains a Candidate iff the four
masks (structural WPA2, negated noise rejection, negated whitespace
rejection, password-like charset) all hold; a string of exactly 8 (or
exactly 63) password-like printable-ASCII characters that contains no
noise/markup token passes; strings of length 7 or 64 always fail; and a
string containing a non-ASCII character always fails. -/
theorem filter_wpa2_compliant_spec :
    (∀ df : PyDataFrame,
        (filter_wpa2_compliant df).password =
          df.password.filter complianceMask) ∧
    (∀ s : List Char, s.all passwordlikeChar = true →
        (s.length = 8 ∨ s.length = 63) → reject_text s = false →
        complianceMask s = true) ∧
    (∀ s : List Char, s.length = 7 ∨ s.length = 64 →
        complianceMask s = false) ∧
    (∀ s : List Char, (∃ c ∈ s, 128 ≤ c.toNat) →
        complianceMask s = false) := by
  refine ⟨fun df => ?_, fun s hall hlen hrt => ?_, fun s hlen => ?_,
    fun s hna => ?_⟩
  · show maskFilter (df.password.map complianceMask) df.password = _
    exact maskFilter_map_self complianceMask df.password
  · have hpr : s.all printableAscii = true :=
      List.all_eq_true.mpr fun c hc =>
        passwordlikeChar_printable (List.all_eq_true.mp hall c hc)
    have hws : reject_whitespace s = false := by
      simp only [reject_whitespace, List.any_eq_false]
      exact fun c hc => by
        simp [passwordlikeChar_not_space (List.all_eq_true.mp hall c hc)]
    have h8 : 8 ≤ s.length := by rcases hlen with h | h <;> omega
    have h63 : s.length ≤ 63 := by rcases hlen with h | h <;> omega
    simp [complianceMask, wpa2_match, passwordlike_match,
      anchoredClassMatch, hpr, hall, hws, hrt, h8, h63]
  · rcases hlen with h | h
    · refine complianceMask_false_of_wpa2 ?_
      simp [wpa2_match, anchoredClassMatch, h, List.length_dropLast]
    · by_cases hl : s.getLast? = some '\n'
      · exact complianceMask_false_of_newline_last hl
      · refine complianceMask_false_of_wpa2 ?_
        simp [wpa2_match, anchoredClassMatch, h, hl, List.length_dropLast]
  · obtain ⟨c, hc, h128⟩ := hna
    by_cases hl : s.getLast? = some '\n'
    · exact complianceMask_false_of_newline_last hl
    · refine complianceMask_false_of_wpa2 ?_
      have hcp : printableAscii c = false := by
        simp only [printableAscii, Bool.and_eq_false_iff,
          decide_eq_false_iff_not]
        omega
      have hpa : s.all printableAscii = false := by
        rw [List.all_eq_false]
        exact ⟨c, hc, by simp [hcp]⟩
      simp [wpa2_match, anchoredClassMatch, hpa, hl]

/-- Witness for C2 as amended: `abcdefgh` (8 password-like characters, no
noise token) passes the compliance mask; `abcdefg` (7 characters) fails. -/
theorem filter_wpa2_compliant_spec_witness :
    complianceMask "abcdefgh".toList = true ∧
    complianceMask "abcdefg".toList = false :=
  ⟨filter_wpa2_compliant_spec.2.1 "abcdefgh".toList (by decide)
      (Or.inl (by decide)) (by decide),
   filter_wpa2_compliant_spec.2.2.1 "abcdefg".toList (Or.inl (by decide))⟩

/-- When the leading run for `p` is empty, dropping it is the identity. -/
lemma dropWhile_eq_self_of_takeWhile_nil {p : Char → Bool} {l : List Char}
    (h : l.takeWhile p = []) : l.dropWhile p = l := by
  conv_rhs => rw [← List.takeWhile_append_dropWhile (p := p) (l := l)]
  rw [h, List.nil_append]

/-- An empty leading run for `p` forces an empty leading run for any
pointwise-stronger predicate `q`. -/
lemma takeWhile_nil_mono {p q : Char → Bool}
    (hsub : ∀ c, q c = true → p c = true) {l : List Char}
    (h : l.takeWhile p = []) : l.takeWhile q = [] := by
  cases l with
  | nil => rfl
  | cons a t =>
    rw [List.takeWhile_cons] at h ⊢
    cases hpa : p a with
    | true => simp [hpa] at h
    | false =>
      cases hqa : q a with
      | true => rw [hsub a hqa] at hpa; cases hpa
      | false => simp [hqa]

/-- Any list splits around its `p`-trailing-stripped core. -/
lemma exists_dropTrailing_split (p : Char → Bool) (l : List Char) :
    ∃ post, l = dropTrailing p l ++ post := by
  refine ⟨(l.reverse.takeWhile p).reverse, ?_⟩
  unfold dropTrailing
  conv_lhs => rw [← l.reverse_reverse,
    ← List.takeWhile_append_dropWhile (p := p) (l := l.reverse)]
  rw [List.reverse_append]

/-- Counterexample to C6: the line ` abc` (no line terminator involved)
yields the Candidate `abc`, not the verbatim line — the loader also
strips the leading space. -/
theorem loader_not_verbatim_counterexample :
    load_chunks " abc\n".toList 10 = [["abc".toList]] ∧
    candidateOf " abc".toList = "abc".toList ∧
    "abc".toList ≠ " abc".toList := by decide

/-- C6 as amended: the loader strips line terminators and any leading or
trailing whitespace, and performs no other normalization — every
Candidate is a contiguous substring of its line, a line with
non-whitespace first and last characters is preserved verbatim, and
internal punctuation survives: the line `bad,line` yields the Candidate
text `bad,line`. -/
theorem candidateOf_spec :
    (∀ line : List Char, ∃ pre post,
        line = pre ++ candidateOf line ++ post) ∧
    (∀ line : List Char, line.takeWhile pyIsSpace = [] →
        line.reverse.takeWhile pyIsSpace = [] → candidateOf line = line) ∧
    candidateOf "bad,line".toList = "bad,line".toList := by
  refine ⟨fun line => ?_, fun line h1 h2 => ?_, by decide⟩
  · obtain ⟨post0, h0⟩ :=
      exists_dropTrailing_split (fun c => c = '\r' || c = '\n') line
    have h0x : line = rstripNl line ++ post0 := h0
    obtain ⟨post1, h2⟩ :=
      exists_dropTrailing_split pyIsSpace
        ((rstripNl line).dropWhile pyIsSpace)
    refine ⟨(rstripNl line).takeWhile pyIsSpace, post1 ++ post0, ?_⟩
    unfold candidateOf pyStrip
    conv_lhs => rw [h0x,
      ← List.takeWhile_append_dropWhile (p := pyIsSpace)
        (l := rstripNl line),
      h2]
    simp [List.append_assoc]
  · have hnl : line.reverse.takeWhile
        (fun c => c = '\r' || c = '\n') = [] :=
      takeWhile_nil_mono (fun c hc => by
        revert hc
        simp only [Bool.or_eq_true, decide_eq_true_eq, pyIsSpace]
        rintro (rfl | rfl) <;> decide) h2
    have hr : rstripNl line = line := by
      unfold rstripNl dropTrailing
      rw [dropWhile_eq_self_of_takeWhile_nil hnl, List.reverse_reverse]
    unfold candidateOf pyStrip dropTrailing
    rw [hr, dropWhile_eq_self_of_takeWhile_nil h1,
      dropWhile_eq_self_of_takeWhile_nil h2, List.reverse_reverse]

/-- Witness for C6 as amended: the line `ab` has no surrounding
whitespace and is loaded verbatim. -/
theorem candidateOf_spec_witness :
    ("ab".toList.takeWhile pyIsSpace = [] ∧
      "ab".toList.reverse.takeWhile pyIsSpace = []) ∧
    candidateOf "ab".toList = "ab".toList :=
  ⟨⟨by decide, by decide⟩,
    candidateOf_spec.2.1 "ab".toList (by decide) (by decide)⟩

/-- Unfolding equation: a blank line is skipped. -/
lemma loadLoop_cons_blank {cs : Nat} {batch : List (List Char)}
    {line : List Char} {rest : List (List Char)}
    (h : candidateOf line = []) :
    loadLoop cs batch (line :: rest) = loadLoop cs batch rest := by
  simp [loadLoop, h]

/-- Unfolding equation: a non-blank line that fills the batch yields it. -/
lemma loadLoop_cons_yield {cs : Nat} {batch : List (List Char)}
    {line : List Char} {rest : List (List Char)}
    (h : ¬candidateOf line = []) (hcs : cs ≤ batch.length + 1) :
    loadLoop cs batch (line :: rest) =
      (batch ++ [candidateOf line]) :: loadLoop cs [] rest := by
  simp [loadLoop, h, hcs]

/-- Unfolding equation: a non-blank line that leaves room grows the
batch. -/
lemma loadLoop_cons_grow {cs : Nat} {batch : List (List Char)}
    {line : List Char} {rest : List (List Char)}
    (h : ¬candidateOf line = []) (hcs : ¬cs ≤ batch.length + 1) :
    loadLoop cs batch (line :: rest) =
      loadLoop cs (batch ++ [candidateOf line]) rest := by
  simp [loadLoop, h, hcs]

/-- The concatenation of the batches produced by the loading loop is the
pending batch followed by the non-blank stripped lines, in order. -/
lemma loadLoop_flatten (cs : Nat) :
    ∀ (rest : List (List Char)) (batch : List (List Char)),
      (loadLoop cs batch rest).flatten =
        batch ++ (rest.map candidateOf).filter (· ≠ []) := by
  intro rest
  induction rest with
  | nil =>
    intro batch
    by_cases h : batch = [] <;> simp [loadLoop, h]
  | cons line rest ih =>
    intro batch
    by_cases hp : candidateOf line = []
    · rw [loadLoop_cons_blank hp]
      simp [hp, ih]
    · by_cases hcs : cs ≤ batch.length + 1
      · rw [loadLoop_cons_yield hp hcs]
        simp [hp, ih]
      · rw [loadLoop_cons_grow hp hcs]
        simp [hp, ih batch, ih (batch ++ [candidateOf line])]

/-- Every batch produced by the loading loop is non-empty and no larger
than the chunk size, provided the pending batch has room. -/
lemma loadLoop_sizes (cs : Nat) :
    ∀ (rest : List (List Char)) (batch : List (List Char)),
      batch.length < cs →
      ∀ b ∈ loadLoop cs batch rest, b.length ≤ cs ∧ b ≠ [] := by
  intro rest
  induction rest with
  | nil =>
    intro batch hlt b hb
    by_cases h : batch = [] <;> simp [loadLoop, h] at hb
    subst hb
    exact ⟨Nat.le_of_lt hlt, h⟩
  | cons line rest ih =>
    intro batch hlt b hb
    by_cases hp : candidateOf line = []
    · rw [loadLoop_cons_blank hp] at hb
      exact ih batch hlt b hb
    · by_cases hcs : cs ≤ batch.length + 1
      · rw [loadLoop_cons_yield hp hcs] at hb
        rcases List.mem_cons.mp hb with hb | hb
        · subst hb
          refine ⟨?_, by simp⟩
          simp only [List.length_append, List.length_cons,
            List.length_nil]
          omega
        · exact ih [] (by simp; omega) b hb
      · rw [loadLoop_cons_grow hp hcs] at hb
        refine ih _ ?_ b hb
        simp only [List.length_append, List.length_cons, List.length_nil]
        omega

/-- Every batch before the last one produced by the loading loop has
exactly the chunk size, provided the pending batch has room. -/
lemma loadLoop_dropLast (cs : Nat) :
    ∀ (rest : List (List Char)) (batch : List (List Char)),
      batch.length < cs →
      ∀ b ∈ (loadLoop cs batch rest).dropLast, b.length = cs := by
  intro rest
  induction rest with
  | nil =>
    intro batch hlt b hb
    by_cases h : batch = [] <;> simp [loadLoop, h] at hb
  | cons line rest ih =>
    intro batch hlt b hb
    by_cases hp : candidateOf line = []
    · rw [loadLoop_cons_blank hp] at hb
      exact ih batch hlt b hb
    · by_cases hcs : cs ≤ batch.length + 1
      · rw [loadLoop_cons_yield hp hcs] at hb
        rcases hrec : loadLoop cs [] rest with _ | ⟨r, rs⟩
        · rw [hrec] at hb
          simp at hb
        · rw [hrec, List.dropLast_cons₂] at hb
          rcases List.mem_cons.mp hb with hb | hb
          · subst hb
            simp only [List.length_append, List.length_cons,
              List.length_nil]
            omega
          · have hmem := ih [] (by simp; omega) b
            rw [hrec] at hmem
            exact hmem hb
      · rw [loadLoop_cons_grow hp hcs] at hb
        refine ih _ ?_ b hb
        simp only [List.length_append, List.length_cons, List.length_nil]
        omega

/-- Counterexample to C4: for the source ` abc\n` the only non-blank,
non-whitespace-only line is ` abc`, yet the concatenation of the yielded
batches is `[abc]` — the loader emits the whitespace-stripped line, not
the line itself, so the batch concatenation is not "exactly the
non-blank, non-whitespace-only lines of the source". -/
theorem load_chunks_not_lines_counterexample :
    (load_chunks " abc\n".toList 10).flatten = ["abc".toList] ∧
    (splitLinesNl " abc\n".toList).filter
        (fun l => !l.all pyIsSpace) = [" abc".toList] ∧
    ["abc".toList] ≠ [" abc".toList] := by decide

/-- C4 as amended: for every source and positive batch size, the loader
yields a finite sequence of batches whose concatenation is exactly the
non-blank lines of the source stripped of line terminators and
surrounding whitespace, in file order; every batch holds at most
`batch_size` Candidates and is non-empty, every non-final batch holds
exactly `batch_size`, a source with no non-blank line yields zero
batches, and the input `"one\ntwo\n\nthree\nfour\nfive\n"` with batch
size 2 yields exactly the 3 batches of sizes [2,2,1]. -/
theorem load_chunks_spec :
    (∀ (content : List Char) (cs : Nat), 0 < cs →
      (load_chunks content cs).flatten =
          ((splitLinesNl content).map candidateOf).filter (· ≠ []) ∧
      (∀ b ∈ load_chunks content cs, b.length ≤ cs ∧ b ≠ []) ∧
      (∀ b ∈ (load_chunks content cs).dropLast, b.length = cs) ∧
      (((splitLinesNl content).map candidateOf).filter (· ≠ []) = [] →
          load_chunks content cs = [])) ∧
    load_chunks "one\ntwo\n\nthree\nfour\nfive\n".toList 2 =
      [["one".toList, "two".toList], ["three".toList, "four".toList],
        ["five".toList]] := by
  refine ⟨fun content cs hcs => ?_, by decide⟩
  have hflat := loadLoop_flatten cs (splitLinesNl content) []
  rw [List.nil_append] at hflat
  refine ⟨hflat, fun b hb => loadLoop_sizes cs _ [] (by simpa using hcs) b hb,
    fun b hb => loadLoop_dropLast cs _ [] (by simpa using hcs) b hb,
    fun hnil => ?_⟩
  rcases hres : load_chunks content cs with _ | ⟨r, rs⟩
  · rfl
  · exfalso
    have hrne : r ≠ [] :=
      (loadLoop_sizes cs _ [] (by simpa using hcs) r
        (by rw [show loadLoop cs [] (splitLinesNl content) =
              load_chunks content cs from rfl, hres]; exact List.mem_cons_self r rs)).2
    have : (load_chunks content cs).flatten = [] := by
      rw [show (load_chunks content cs).flatten =
        ((splitLinesNl content).map candidateOf).filter (· ≠ []) from hflat,
        hnil]
    rw [hres] at this
    simp only [List.flatten_cons, List.append_eq_nil] at this
    exact hrne this.1

/-- Witness for C4: the spec example input with batch size 2 (which is
positive) satisfies the concatenation property. -/
theorem load_chunks_spec_witness :
    0 < 2 ∧
    (load_chunks "one\ntwo\n\nthree\nfour\nfive\n".toList 2).flatten =
      ((splitLinesNl "one\ntwo\n\nthree\nfour\nfive\n".toList).map
          candidateOf).filter (· ≠ []) :=
  ⟨by decide,
    (load_chunks_spec.1 "one\ntwo\n\nthree\nfour\nfive\n".toList 2
      (by decide)).1⟩

/-- The empty chunk survives no filter. -/
lemma retained_nil_of_chunk_nil {cfg : Config} : retained cfg [] = [] := by
  simp [retained, entropyFiltered]

/-- A chunk emptied by the entropy filter is empty after the WPA2 stage
as well. -/
lemma retained_nil_of_entropyFiltered_nil {cfg : Config}
    {chunk : List (List Char)} (h : entropyFiltered cfg chunk = []) :
    retained cfg chunk = [] := by
  simp [retained, h]

/-- The output-mode field after one loop iteration: untouched on a skipped
chunk or without metadata; otherwise resolved from the pre-filter chunk
size exactly when it was still unresolved. -/
lemma processChunk_useAscii (cfg : Config) (st : RunState)
    (chunk : List (List Char)) :
    (processChunk cfg st chunk).useAsciiOutput =
      if retained cfg chunk = [] then st.useAsciiOutput
      else if cfg.addMetadata then
        (match st.useAsciiOutput with
         | some v => some v
         | none => some (decide (chunk.length ≤ MAX_ASCII_ROWS_FOR_FILE)))
      else st.useAsciiOutput := by
  by_cases h1 : chunk = []
  · subst h1
    simp [processChunk, retained_nil_of_chunk_nil]
  · by_cases h2 : entropyFiltered cfg chunk = []
    · have hr := retained_nil_of_entropyFiltered_nil h2
      simp [processChunk, h1, h2, hr]
    · by_cases h3 : retained cfg chunk = []
      · simp [processChunk, h1, h2, h3]
      · by_cases hm : cfg.addMetadata
        · by_cases hk : cfg.markdownTable
          · simp [processChunk, h1, h2, h3, hm, hk]
          · simp only [processChunk, h1, h2, h3, hm, hk, if_false,
              if_true, ite_false, ite_true]
            split_ifs <;> rfl
        · simp [processChunk, h1, h2, h3, hm]

/-- An already-made output-mode decision survives any number of further
loop iterations. -/
lemma foldl_useAscii_persist (cfg : Config) :
    ∀ (chunks : List (List (List Char))) (st : RunState) (v : Bool),
      st.useAsciiOutput = some v →
      (chunks.foldl (processChunk cfg) st).useAsciiOutput = some v := by
  intro chunks
  induction chunks with
  | nil => intro st v h; simpa using h
  | cons c t ih =>
    intro st v h
    rw [List.foldl_cons]
    refine ih _ v ?_
    rw [processChunk_useAscii]
    split_ifs <;> simp [h]

/-- C5: on the first non-skipped batch of a run with metadata requested,
the orchestrator records the one-time output-mode decision — compact
(ASCII) mode iff the pre-filter size of that batch is at most
`MAX_ASCII_ROWS_FOR_FILE` (5000); the decision is not made on skipped
batches or without metadata; and once made it never changes for the rest
of the run. -/
theorem output_mode_decision (cfg : Config) (st : RunState)
    (chunk : List (List Char)) :
    (∀ v, st.useAsciiOutput = some v →
        (processChunk cfg st chunk).useAsciiOutput = some v) ∧
    (st.useAsciiOutput = none → cfg.addMetadata = true →
        retained cfg chunk ≠ [] →
        (processChunk cfg st chunk).useAsciiOutput =
          some (decide (chunk.length ≤ MAX_ASCII_ROWS_FOR_FILE))) ∧
    (st.useAsciiOutput = none →
        (cfg.addMetadata = false ∨ retained cfg chunk = []) →
        (processChunk cfg st chunk).useAsciiOutput = none) ∧
    (∀ (chunks : List (List (List Char))) (v : Bool),
        st.useAsciiOutput = some v →
        (chunks.foldl (processChunk cfg) st).useAsciiOutput = some v) := by
  refine ⟨fun v h => ?_, fun hn hm hr => ?_, fun hn hd => ?_,
    fun chunks v h => foldl_useAscii_persist cfg chunks st v h⟩
  · rw [processChunk_useAscii]
    split_ifs <;> simp [h]
  · rw [processChunk_useAscii, if_neg hr, if_pos hm, hn]
  · rw [processChunk_useAscii]
    rcases hd with hd | hd
    · split_ifs with h1 h2
      · exact hn
      · rw [hd] at h2; cases h2
      · exact hn
    · rw [if_pos hd]; exact hn

/-- Witness for C5: with metadata requested, no prior decision, and a
one-password batch that survives the (disabled) filters, the decision
comes out `some true` (1 ≤ 5000). -/
theorem output_mode_decision_witness :
    (processChunk ⟨0, false, true, false, 2⟩ ⟨none, false, 0, []⟩
        [['a']]).useAsciiOutput = some true := by
  have hr : retained ⟨0, false, true, false, 2⟩ [['a']] ≠ [] := by
    simp [retained, entropyFiltered]
  have h := (output_mode_decision ⟨0, false, true, false, 2⟩
    ⟨none, false, 0, []⟩ [['a']]).2.1 rfl rfl hr
  rw [h]
  rfl

/-- One loop iteration in raw mode (metadata not requested): a skipped
chunk leaves the state untouched; otherwise exactly one raw write of the
retained passwords is appended and the total advances. -/
lemma processChunk_raw {cfg : Config} (h : cfg.addMetadata = false)
    (st : RunState) (chunk : List (List Char)) :
    processChunk cfg st chunk =
      if retained cfg chunk = [] then st
      else
        { useAsciiOutput := st.useAsciiOutput
          csvHeaderWritten := st.csvHeaderWritten
          totalPasswords := st.totalPasswords + (retained cfg chunk).length
          events := st.events ++ [OutEvent.raw (retained cfg chunk)] } := by
  by_cases h1 : chunk = []
  · subst h1
    simp [processChunk, retained_nil_of_chunk_nil]
  · by_cases h2 : entropyFiltered cfg chunk = []
    · have hr := retained_nil_of_entropyFiltered_nil h2
      simp [processChunk, h1, h2, hr]
    · by_cases h3 : retained cfg chunk = []
      · simp [processChunk, h1, h2, h3]
      · simp [processChunk, h1, h2, h3, h]

/-- In raw mode a run appends exactly one raw write per non-skipped chunk,
carrying the retained passwords of that chunk, in order. -/
lemma foldl_events_raw {cfg : Config} (h : cfg.addMetadata = false) :
    ∀ (chunks : List (List (List Char))) (st : RunState),
      (chunks.foldl (processChunk cfg) st).events =
        st.events ++
          ((chunks.map (retained cfg)).filter (· ≠ [])).map OutEvent.raw := by
  intro chunks
  induction chunks with
  | nil => intro st; simp
  | cons c t ih =>
    intro st
    rw [List.foldl_cons, ih, processChunk_raw h]
    by_cases h3 : retained cfg c = []
    · simp [h3, List.filter_cons]
    · simp [h3, List.filter_cons, List.append_assoc]

/-- Counterexample to C8: in raw mode the retained Candidate `bad,line`
is written through `to_csv`, which quotes the field — the output line is
`"bad,line"`, not the Candidate's text. -/
theorem raw_output_counterexample :
    rawCsvBytes ["bad,line".toList] ≠ "bad,line".toList ++ ['\n'] ∧
    rawCsvBytes ["bad,line".toList] =
      (Char.ofNat 34 :: "bad,line".toList) ++ [Char.ofNat 34, '\n'] := by
  decide

/-- C8 as amended: in raw-list mode every run appends exactly one raw
write per non-skipped batch holding the retained Candidates in input
order with no header, and the bytes written are one CSV-minimally-quoted
field per Candidate, one per line — equal to the Candidate's text
verbatim exactly for texts free of commas, quotes and line breaks. -/
theorem raw_mode_output_spec :
    (∀ (cfg : Config), cfg.addMetadata = false →
      ∀ chunks : List (List (List Char)),
        runEvents cfg chunks =
          ((chunks.map (retained cfg)).filter (· ≠ [])).map OutEvent.raw) ∧
    (∀ texts : List (List Char),
        rawCsvBytes texts =
          (texts.map (fun p => csvField p ++ ['\n'])).flatten) ∧
    (∀ p : List Char, p.all (fun c => !csvNeedsQuote c) = true →
        csvField p = p) := by
  refine ⟨fun cfg h chunks => ?_, fun texts => rfl, fun p hp => ?_⟩
  · rw [runEvents, foldl_events_raw h chunks initState]
    rfl
  · have hq : p.any csvNeedsQuote = false := by
      rw [List.any_eq_false]
      intro c hc
      have := List.all_eq_true.mp hp c hc
      simpa using this
    simp [csvField, hq]

/-- Witness for C8 as amended: a comma-free, quote-free text is written
verbatim, and a raw-mode run over no chunks writes nothing. -/
theorem raw_mode_output_spec_witness :
    csvField "abc".toList = "abc".toList ∧
    runEvents ⟨0, false, false, false, 2⟩ [] = [] :=
  ⟨raw_mode_output_spec.2.2 "abc".toList (by decide),
   raw_mode_output_spec.1 ⟨0, false, false, false, 2⟩ rfl []⟩

/-- A token found in `t` is found in `s ++ t`. -/
lemma containsSub_append_left (tok : List Char) :
    ∀ (s t : List Char), containsSub tok t = true →
      containsSub tok (s ++ t) = true := by
  intro s
  induction s with
  | nil => intro t h; simpa using h
  | cons a s ih =>
    intro t h
    rw [List.cons_append]
    show (hasPrefixL tok (a :: (s ++ t)) || containsSub tok (s ++ t)) = true
    rw [ih t h, Bool.or_true]

/-- C9: when the source path does not resolve to an existing file, the run
reports exit status 1 (non-zero) with a message containing `not found`,
and the output destination is left exactly as it was — neither created,
truncated, nor modified. -/
theorem missing_source_spec (inputFile content : List Char) (cfg : Config)
    (outBefore : Option (List OutEvent)) :
    (analyze false inputFile content cfg outBefore).exitCode = 1 ∧
    (analyze false inputFile content cfg outBefore).exitCode ≠ 0 ∧
    containsSub "not found".toList
        (analyze false inputFile content cfg outBefore).message = true ∧
    (analyze false inputFile content cfg outBefore).outFile = outBefore := by
  refine ⟨rfl, fun h => Nat.one_ne_zero h, ?_, rfl⟩
  show containsSub "not found".toList
    ("Error: File '".toList ++ (inputFile ++ "' not found.".toList)) = true
  refine containsSub_append_left _ _ _ ?_
  refine containsSub_append_left _ _ _ ?_
  decide

/-- Summing a function over the deduplicated character list is summing it
over the character set. -/
lemma sum_dedup_map (g : Char → ℝ) (w : List Char) :
    (w.dedup.map g).sum = ∑ c ∈ w.toFinset, g c := by
  have hfin : w.dedup.toFinset = w.toFinset := by
    ext a
    simp [List.mem_toFinset, List.mem_dedup]
  rw [← hfin, List.sum_toFinset g (List.nodup_dedup w)]

/-- The probability vector handed to `scipy.stats.entropy` already sums
to one. -/
lemma probs_sum_one {w : List Char} (hw : w ≠ []) :
    (w.dedup.map (fun c => (w.count c : ℝ) / (w.length : ℝ))).sum = 1 := by
  have hn : (w.length : ℝ) ≠ 0 := by
    have : w.length ≠ 0 := fun h => hw (List.length_eq_zero.mp h)
    exact_mod_cast Nat.cast_ne_zero.mpr this
  rw [sum_dedup_map, ← Finset.sum_div, ← Nat.cast_sum,
    List.sum_toFinset_count_eq_length, div_self hn]

/-- The closed form of `calculate_shannon_entropy`: minus the sum, over
the distinct characters, of `p * log2 p` with `p` the character's
relative frequency. -/
lemma calculate_shannon_entropy_eq (w : List Char) :
    calculate_shannon_entropy w =
      -∑ c ∈ w.toFinset,
          ((w.count c : ℝ) / (w.length : ℝ)) *
            Real.logb 2 ((w.count c : ℝ) / (w.length : ℝ)) := by
  by_cases hw : w = []
  · subst hw
    simp [calculate_shannon_entropy]
  · simp only [calculate_shannon_entropy, scipy_entropy, if_neg hw]
    rw [probs_sum_one hw]
    simp only [div_one, List.map_map, Function.comp]
    rw [sum_dedup_map, neg_div, Finset.sum_div]
    congr 1
    refine Finset.sum_congr rfl fun c _ => ?_
    simp only [Function.comp_apply]
    rw [mul_div_assoc, Real.log_div_log]

/-- Uniform distributions: when every distinct character of a non-empty
`w` occurs exactly `m` times, the entropy is `log2` of the number of
distinct characters. -/
lemma shannon_entropy_uniform (w : List Char) (m : ℕ) (hw : w ≠ [])
    (hcount : ∀ c ∈ w.toFinset, w.count c = m) :
    calculate_shannon_entropy w = Real.logb 2 (w.toFinset.card : ℝ) := by
  obtain ⟨a, ha⟩ := List.exists_mem_of_ne_nil w hw
  have haf : a ∈ w.toFinset := List.mem_toFinset.mpr ha
  have hm : m ≠ 0 := by
    intro h
    have := hcount a haf
    rw [h] at this
    exact (List.count_pos_iff.mpr ha).ne' this
  have hk : w.toFinset.card ≠ 0 :=
    Finset.card_ne_zero_of_mem haf
  have hmR : (m : ℝ) ≠ 0 := Nat.cast_ne_zero.mpr hm
  have hkR : (w.toFinset.card : ℝ) ≠ 0 := Nat.cast_ne_zero.mpr hk
  have hlen : w.length = w.toFinset.card * m := by
    rw [← List.sum_toFinset_count_eq_length]
    rw [Finset.sum_congr rfl hcount, Finset.sum_const, smul_eq_mul]
  rw [calculate_shannon_entropy_eq w]
  have hterm : ∀ c ∈ w.toFinset,
      ((w.count c : ℝ) / (w.length : ℝ)) *
          Real.logb 2 ((w.count c : ℝ) / (w.length : ℝ)) =
        (w.toFinset.card : ℝ)⁻¹ *
          Real.logb 2 (w.toFinset.card : ℝ)⁻¹ := by
    intro c hc
    have hp : ((w.count c : ℝ) / (w.length : ℝ)) =
        (w.toFinset.card : ℝ)⁻¹ := by
      rw [hcount c hc, hlen]
      push_cast
      rw [mul_comm, ← div_div, div_self hmR, one_div]
    rw [hp]
  rw [Finset.sum_congr rfl hterm, Finset.sum_const, nsmul_eq_mul,
    ← mul_assoc, mul_inv_cancel₀ hkR, one_mul, Real.logb_inv, neg_neg]

/-- C1: the entropy function computes exactly
`-sum over distinct characters of p * log2 p` with `p = count/len`; in
particular it returns 0 for the empty string, 0 for any single character
repeated `n > 0` times, and `log2 k` for every non-empty string whose `k`
distinct characters are equally frequent. (Floats are modelled by ℝ, so
the `1e-6` relative tolerance of the claim is satisfied by exact
equality.) -/
theorem shannon_entropy_spec :
    (∀ w : List Char,
        calculate_shannon_entropy w =
          -∑ c ∈ w.toFinset,
              ((w.count c : ℝ) / (w.length : ℝ)) *
                Real.logb 2 ((w.count c : ℝ) / (w.length : ℝ))) ∧
    calculate_shannon_entropy [] = 0 ∧
    (∀ (c : Char) (n : ℕ), 0 < n →
        calculate_shannon_entropy (List.replicate n c) = 0) ∧
    (∀ (w : List Char) (m : ℕ), w ≠ [] →
        (∀ c ∈ w.toFinset, w.count c = m) →
        calculate_shannon_entropy w =
          Real.logb 2 (w.toFinset.card : ℝ)) := by
  refine ⟨calculate_shannon_entropy_eq, by simp [calculate_shannon_entropy],
    fun c n hn => ?_, shannon_entropy_uniform⟩
  have hrep := shannon_entropy_uniform (List.replicate n c) n
    (List.ne_nil_of_length_pos (by simpa using hn))
    (fun x hx => by
      have hx2 : x = c :=
        List.eq_of_mem_replicate (List.mem_toFinset.mp hx)
      subst hx2
      exact List.count_replicate_self x n)
  rw [hrep, List.toFinset_replicate_of_ne_zero hn.ne']
  simp

/-- Witness for C1: three repetitions of `a` have entropy 0, and the
two-character uniform string `ab` has entropy `log2` of its 2-element
character set. -/
theorem shannon_entropy_spec_witness :
    0 < 3 ∧ calculate_shannon_entropy (List.replicate 3 'a') = 0 ∧
    ("ab".toList ≠ [] ∧
      calculate_shannon_entropy "ab".toList =
        Real.logb 2 (("ab".toList).toFinset.card : ℝ)) :=
  ⟨by decide, shannon_entropy_spec.2.2.1 'a' 3 (by decide),
    by decide,
    shannon_entropy_spec.2.2.2 "ab".toList 1 (by decide) (by decide)⟩

end WordlistRefinery
